import Mathlib

/-
Verification of sir/schema/searchentities.py (query planner / path merging /
column deferral) and, where the amqp handler module is only visible through
its tests, spec-modelled definitions of the retry router and fan-out resolver.

Python dicts are embedded as association lists kept sorted by key, so that
dict equality (which in Python ignores insertion order) coincides with
structural equality of the representation.  Exceptions raised by the Python
code (TypeError on indexing a string, AttributeError on missing attributes,
IndexError on an empty primary key) are embedded as `Option.none` results.
-/

set_option maxHeartbeats 1000000

namespace Sir

/-- A value stored in the merged path dictionary of `merge_paths`:
either the terminal marker (the Python code stores the empty string `""`)
or a nested dictionary (a `defaultdict`). -/
inductive PVal where
  | term : PVal
  | node : List (String × PVal) → PVal

/-- The merged path dictionary: a Python dict from segment name to `PVal`,
represented as an association list sorted by key. -/
abbrev PDict := List (String × PVal)

/-- Python dict membership / item lookup (`pathelem in d` / `d[pathelem]`). -/
def lookupD : PDict → String → Option PVal
  | [], _ => none
  | (k', v') :: rest, k => if k = k' then some v' else lookupD rest k

/-- Boolean lexicographic comparison of character lists (by code point).
Used only to keep the association-list representation of a dict canonical;
Python dict equality ignores any ordering, so the choice of order is free. -/
def clLtB : List Char → List Char → Bool
  | [], [] => false
  | [], _ :: _ => true
  | _ :: _, [] => false
  | a :: as, b :: bs =>
    if a.toNat < b.toNat then true
    else if b.toNat < a.toNat then false
    else clLtB as bs

/-- Boolean comparison of strings by their character data. -/
def strLtB (a b : String) : Bool := clLtB a.data b.data

/-- Python dict item assignment `d[k] = v`, keeping the association list
sorted by key (a canonical representation of the finite map). -/
def setKey : PDict → String → PVal → PDict
  | [], k, v => [(k, v)]
  | (k', v') :: rest, k, v =>
    if strLtB k k' then (k, v) :: (k', v') :: rest
    else if k = k' then (k, v) :: rest
    else (k', v') :: setKey rest k v

/-- Split a character list on `.`, keeping empty pieces, exactly like
Python's `str.split(".")` (single-character separator). -/
def splitCharsDot : List Char → List (List Char)
  | [] => [[]]
  | c :: rest =>
    if c = '.' then [] :: splitCharsDot rest
    else
      match splitCharsDot rest with
      | [] => [[c]]
      | h :: t => (c :: h) :: t

/-- `path.split(".")` from the source.  Note `len(path.split(".")) =
path.count(".") + 1` always holds for a one-character separator, so the
source's `i >= path_length` test (with `path_length = path.count(".")`)
is exactly the test for the last element of the split. -/
def splitDots (s : String) : List String :=
  (splitCharsDot s.data).map (fun l => String.mk l)

/-- The inner loop of `merge_paths` for a single already-split path
(searchentities.py lines 28-43), acting on one dictionary level.

  * last segment (`i >= path_length`): `current_path_dict[pathelem] = ""`,
    overwriting whatever was there;
  * non-last segment present in the dict: reuse `current_path_dict[pathelem]`;
    if that stored value is the terminal marker `""` (a Python `str`), the
    next loop iteration unavoidably performs an item assignment on that
    string and raises `TypeError`, so the whole merge fails (`none`);
  * non-last segment absent: link a fresh `defaultdict` and descend. -/
def insertPath : List String → PDict → Option PDict
  | [], d => some d
  | [k], d => some (setKey d k PVal.term)
  | k :: k2 :: rest, d =>
    match lookupD d k with
    | some PVal.term => none
    | some (PVal.node sub) =>
      (insertPath (k2 :: rest) sub).map (fun s => setKey d k (PVal.node s))
    | none =>
      (insertPath (k2 :: rest) []).map (fun s => setKey d k (PVal.node s))

/-- `merge_paths` (searchentities.py lines 14-44): fold every path of every
path-group into one dictionary.  A raised exception is embedded as `none`. -/
def merge_paths (field_paths : List (List String)) : Option PDict :=
  field_paths.foldlM
    (fun acc path_list =>
      path_list.foldlM (fun d path => insertPath (splitDots path) d) acc)
    []

/-! ### Column deferral and the entity query builder -/

/-- One loader-option operation recorded on a `sqlalchemy.orm.Load` chain. -/
inductive LoadOp where
  | subqueryload (k : String)
  | joinedload (k : String)
  | defaultload (k : String)
  | defer (k : String)
deriving DecidableEq, Repr

/-- A `Load` object, embedded as the ordered list of operations applied to it. -/
structure LoadM where
  ops : List LoadOp
deriving DecidableEq, Repr

/-- One element of `mapper.iterate_properties`: its `key`, and whether it has
a `columns` attribute (i.e. is a column property rather than a relationship). -/
structure PropM where
  key : String
  hasColumns : Bool
deriving DecidableEq, Repr

/-- A SQLAlchemy mapper: the names of its primary-key columns and its
iterated properties. -/
structure MapperM where
  primary_key : List String
  props : List PropM
deriving DecidableEq, Repr

/-- Python `key[:-3]` (drop the last three characters; shorter strings
become `""`, as in Python). -/
def strDropLast3 (s : String) : String :=
  String.mk (s.data.take (s.data.length - 3))

/-- Python `key[-3:]` (the last three characters; shorter strings are
returned whole, as in Python). -/
def strTakeLast3 (s : String) : String :=
  String.mk (s.data.drop (s.data.length - 3))

/-- `defer_everything_but` (searchentities.py lines 47-59): defer every
column property of `mapper` whose key is not in `columns`, does not have
its `[:-3]` stem in `columns`, does not end in `_id`, is not `position`,
and is not a primary-key column name. -/
def defer_everything_but (mapper : MapperM) (load : LoadM)
    (columns : List String) : LoadM :=
  mapper.props.foldl
    (fun load p =>
      if p.hasColumns then
        if p.key ∉ columns ∧ strDropLast3 p.key ∉ columns ∧
            strTakeLast3 p.key ≠ "_id" ∧ p.key ≠ "position" ∧
            p.key ∉ mapper.primary_key then
          { load with ops := load.ops ++ [LoadOp.defer p.key] }
        else load
      else load)
    load

/-- The direction tag of a SQLAlchemy relationship property
(`sqlalchemy.orm.interfaces.ONETOMANY` / `MANYTOONE` / anything else). -/
inductive RelDir where
  | onetomany
  | manytoone
  | other
deriving DecidableEq, Repr

/-- A relationship property: its direction and `prop.mapper.class_`
(the related model). -/
structure RelInfo where
  direction : RelDir
  mapperClass : String
deriving DecidableEq, Repr

/-- What `getattr(model, pathelem).property` is: a (non-relationship) column
property, or a `RelationshipProperty`.  `none` at the call site stands for a
raised `AttributeError`. -/
inductive AttrProp where
  | column
  | relationship (r : RelInfo)
deriving DecidableEq, Repr

/-- The static description of the mapped classes that
`build_entity_query` introspects at run time: `attr model name` is
`getattr(model, name).property` and `mapper model` is `class_mapper(model)`. -/
structure DBSchema where
  attr : String → String → Option AttrProp
  mapper : String → MapperM

/-- A `SearchField`: its name and dot-delimited paths (the constructor wraps
a single path into a one-element list; `transformfunc` plays no role in
query building and is omitted). -/
structure SearchFieldM where
  name : String
  paths : List String

/-- `paths = [field.paths for field in self.fields]` from
`build_entity_query` (searchentities.py line 103). -/
def field_paths_of (fields : List SearchFieldM) : List (List String) :=
  fields.map (fun f => f.paths)

/-- The inner `for pathelem in split_path` loop of `build_entity_query`
(searchentities.py lines 112-136), walking one split path while threading
the merged-path subtree, the current model and the `Load` chain.

Failure modes embedded as `none`: indexing the terminal marker string
(`TypeError`), an unknown attribute (`AttributeError`), an empty
`primary_key` on the related mapper (`IndexError`), and calling `.keys()`
on a terminal marker or on the `set` a missing key would auto-create in the
`defaultdict` (`AttributeError`). -/
def walk_path (schema : DBSchema) : List String → PVal → String → LoadM → Option LoadM
  | [], _, _, load => some load
  | _ :: _, PVal.term, _, _ => none
  | pathelem :: rest, PVal.node d, model, load =>
    match schema.attr model pathelem with
    | none => none
    | some AttrProp.column =>
      match lookupD d pathelem with
      | none => if rest = [] then some load else none
      | some sub => walk_path schema rest sub model load
    | some (AttrProp.relationship r) =>
      match lookupD d pathelem with
      | none => none
      | some sub =>
        match (schema.mapper r.mapperClass).primary_key.head? with
        | none => none
        | some pk =>
          let load1 : LoadM :=
            match r.direction with
            | RelDir.onetomany => { load with ops := load.ops ++ [LoadOp.subqueryload pathelem] }
            | RelDir.manytoone => { load with ops := load.ops ++ [LoadOp.joinedload pathelem] }
            | RelDir.other => { load with ops := load.ops ++ [LoadOp.defaultload pathelem] }
          match sub with
          | PVal.term => none
          | PVal.node dsub =>
            let required_columns := dsub.map (fun kv => kv.1) ++ [pk]
            let load2 := defer_everything_but (schema.mapper r.mapperClass) load1 required_columns
            walk_path schema rest sub r.mapperClass load2

/-- `SearchEntity.build_entity_query` (searchentities.py lines 93-138):
merge all field paths, then for every path build a fresh `Load` chain from
the root model by walking the path, and collect the chains as the query's
options.  The result is the list of option chains; `none` embeds a raised
exception. -/
def build_entity_query (schema : DBSchema) (root_model : String)
    (fields : List SearchFieldM) : Option (List LoadM) :=
  match merge_paths (field_paths_of fields) with
  | none => none
  | some merged_paths =>
    (field_paths_of fields).foldlM
      (fun query field_paths =>
        field_paths.foldlM
          (fun query path =>
            (walk_path schema (splitDots path) (PVal.node merged_paths)
                root_model { ops := [] }).map
              (fun load => query ++ [load]))
          query)
      []

/-! ### Spec-modelled AMQP retry router and fan-out resolver

The module `sir/amqp/handler.py` is not part of the sources here; only its
test file is.  The definitions below are therefore modelled from the spec
(sections 4.3, 4.4 and 8) and the expectations of
`test/test_amqp_handler.py`. -/

/-- A broker channel operation, in the order the wrapper performs them. -/
inductive AmqpOp where
  | basic_ack (tag : Nat)
  | basic_reject (tag : Nat) (requeue : Bool)
  | basic_publish (exchange : String) (routing_key : String) (retries : Nat)
deriving DecidableEq, Repr

/-- Modelled from the spec: `callback_wrapper` of the missing
`sir/amqp/handler.py` (spec section 4.3, RetryRouter).  `raises` says whether
the wrapped callable raised (any exception is treated uniformly);
`retries_header` is the `mb-retries` message header (absent ⇒ the configured
maximum `default_retries`, the handler's `_DEFAULT_MB_RETRIES`).  On success:
one ack.  On failure: reject the delivery without requeueing, then republish
with the same routing key — to `search.retry` with the counter decremented
when it is positive, to `search.failed` with the counter left at `0`
otherwise. -/
def callback_wrapper (raises : Bool) (retries_header : Option Nat)
    (default_retries : Nat) (tag : Nat) (routing_key : String) : List AmqpOp :=
  if raises then
    let retries := retries_header.getD default_retries
    if retries > 0 then
      [AmqpOp.basic_reject tag false,
       AmqpOp.basic_publish "search.retry" routing_key (retries - 1)]
    else
      [AmqpOp.basic_reject tag false,
       AmqpOp.basic_publish "search.failed" routing_key 0]
  else
    [AmqpOp.basic_ack tag]

/-- The delivery tags of the acks among a list of channel operations. -/
def acksOf (ops : List AmqpOp) : List Nat :=
  ops.filterMap fun op =>
    match op with
    | AmqpOp.basic_ack t => some t
    | _ => none

/-- The `(tag, requeue)` pairs of the rejects among a list of operations. -/
def rejectsOf (ops : List AmqpOp) : List (Nat × Bool) :=
  ops.filterMap fun op =>
    match op with
    | AmqpOp.basic_reject t rq => some (t, rq)
    | _ => none

/-- The `(exchange, routing key, retries header)` triples of the publishes
among a list of operations. -/
def publishesOf (ops : List AmqpOp) : List (String × String × Nat) :=
  ops.filterMap fun op =>
    match op with
    | AmqpOp.basic_publish e rk r => some (e, rk, r)
    | _ => none

/-- Modelled from the spec: the fixed, declared fan-out dependency registry
of the missing `sir/amqp/handler.py` (spec sections 4.4 and 8): for a
changed row of a given type, the dependent `(table, foreign-key column)`
pairs known to reference it, in the fixed order the resolver queries them. -/
def fanout_registry : String → List (String × String)
  | "area" =>
    [("place", "area"), ("label", "area"), ("artist", "end_area"),
     ("artist", "area"), ("artist", "begin_area")]
  | _ => []

/-- Modelled from the spec: the narrow projection query issued per dependent
relationship — select only the dependent primary key, filtered by the
foreign-key column being in the changed id set (bound as `:ids`). -/
def projection_query (table fk : String) : String :=
  "SELECT " ++ table ++ ".id FROM musicbrainz." ++ table ++
    " WHERE " ++ table ++ "." ++ fk ++ " IN (:ids)"

/-- Modelled from the spec: `Handler._index_by_fk` fan-out resolution of the
missing `sir/amqp/handler.py` — one projection query per registered
dependent pair, each executed with the changed id set as its `ids`
parameter, in registry order. -/
def index_by_fk (changed_type : String) (ids : String) : List (String × String) :=
  (fanout_registry changed_type).map (fun tc => (projection_query tc.1 tc.2, ids))

/-! ### Auxiliary definitions used only by the statements and proofs -/

/-- `properPrefB p q` holds when the segment list `p` is a proper prefix of
the segment list `q`.  Conflicts in `merge_paths` (a terminal marker
overwritten by or blocking a descent) happen exactly between such pairs. -/
def properPrefB : List String → List String → Bool
  | [], [] => false
  | [], _ :: _ => true
  | _ :: _, [] => false
  | a :: p, b :: q => if a = b then properPrefB p q else false

/-- Two split paths are compatible when neither is a proper prefix of the
other (equal paths are compatible). -/
abbrev pathCompat (p q : List String) : Prop :=
  properPrefB p q = false ∧ properPrefB q p = false

/-- All paths of all path-groups, flattened and split on `.`. -/
def flatSegs (field_paths : List (List String)) : List (List String) :=
  field_paths.flatten.map splitDots

/-- Folding a list of already-split paths into a dictionary; `merge_paths`
is this fold over `flatSegs` of its input. -/
def foldIns (d : PDict) (l : List (List String)) : Option PDict :=
  l.foldlM (fun d p => insertPath p d) d

/-- Whether a load operation navigates into a relationship (as opposed to
deferring a column at the chain's current position). -/
def LoadOp.isNav : LoadOp → Bool
  | LoadOp.defer _ => false
  | _ => true

/-- The loop body of `defer_everything_but`, as a named function of the
primary-key names and required columns (used to reason about the fold). -/
def deferStep (pks columns : List String) (load : LoadM) (p : PropM) : LoadM :=
  if p.hasColumns then
    if p.key ∉ columns ∧ strDropLast3 p.key ∉ columns ∧
        strTakeLast3 p.key ≠ "_id" ∧ p.key ≠ "position" ∧
        p.key ∉ pks then
      { load with ops := load.ops ++ [LoadOp.defer p.key] }
    else load
  else load

/-- The decision `defer_everything_but` makes for one property: the defer
operation it appends, if any. -/
def deferDecide (pks columns : List String) (p : PropM) : Option LoadOp :=
  if p.hasColumns then
    if p.key ∉ columns ∧ strDropLast3 p.key ∉ columns ∧
        strTakeLast3 p.key ≠ "_id" ∧ p.key ≠ "position" ∧
        p.key ∉ pks then
      some (LoadOp.defer p.key)
    else none
  else none

/-- The defer operations `defer_everything_but` appends, in property order. -/
def deferOps (mapper : MapperM) (columns : List String) : List LoadOp :=
  mapper.props.filterMap (deferDecide mapper.primary_key columns)

/-- A small concrete database schema used for witnesses and counterexamples:
an `artist` model with plain columns `name` and `comment`, a many-to-one
relationship `area` and a one-to-many relationship `aliases`. -/
def egSchema : DBSchema where
  attr model a :=
    if model = "artist" then
      if a = "name" then some AttrProp.column
      else if a = "area" then some (AttrProp.relationship ⟨RelDir.manytoone, "area"⟩)
      else if a = "aliases" then some (AttrProp.relationship ⟨RelDir.onetomany, "artist_alias"⟩)
      else none
    else if model = "area" then
      if a = "name" then some AttrProp.column else none
    else if model = "artist_alias" then
      if a = "name" then some AttrProp.column else none
    else none
  mapper model :=
    if model = "artist" then
      ⟨["id"], [⟨"id", true⟩, ⟨"name", true⟩, ⟨"comment", true⟩,
                ⟨"area", false⟩, ⟨"area_id", true⟩]⟩
    else if model = "area" then
      ⟨["id"], [⟨"id", true⟩, ⟨"name", true⟩, ⟨"comment", true⟩]⟩
    else if model = "artist_alias" then
      ⟨["id"], [⟨"id", true⟩, ⟨"name", true⟩, ⟨"locale", true⟩, ⟨"position", true⟩]⟩
    else ⟨[], []⟩

/-! ### Ordering lemmas for the canonical association-list representation -/

theorem char_toNat_inj {a b : Char} (h : a.toNat = b.toNat) : a = b := by
  rcases a with ⟨⟨⟨va, hva⟩⟩, pa⟩
  rcases b with ⟨⟨⟨vb, hvb⟩⟩, pb⟩
  simp [Char.toNat, UInt32.toNat] at h
  subst h
  rfl

theorem clLtB_irrefl : ∀ l : List Char, clLtB l l = false
  | [] => rfl
  | c :: rest => by simp [clLtB, clLtB_irrefl rest]

theorem clLtB_asymm : ∀ {l₁ l₂ : List Char},
    clLtB l₁ l₂ = true → clLtB l₂ l₁ = false
  | [], [], h => by simp [clLtB] at h
  | [], _ :: _, _ => rfl
  | _ :: _, [], h => by simp [clLtB] at h
  | a :: as, b :: bs, h => by
    by_cases hab : a.toNat < b.toNat
    · have hba : ¬ b.toNat < a.toNat := Nat.lt_asymm hab
      simp [clLtB, hab, hba]
    · by_cases hba : b.toNat < a.toNat
      · simp [clLtB, hab, hba] at h
      · simp only [clLtB, if_neg hab, if_neg hba] at h
        simp [clLtB, hab, hba, clLtB_asymm h]

theorem clLtB_conn : ∀ {l₁ l₂ : List Char},
    clLtB l₁ l₂ = false → clLtB l₂ l₁ = false → l₁ = l₂
  | [], [], _, _ => rfl
  | [], _ :: _, h, _ => by simp [clLtB] at h
  | _ :: _, [], _, h => by simp [clLtB] at h
  | a :: as, b :: bs, h₁, h₂ => by
    by_cases hab : a.toNat < b.toNat
    · simp [clLtB, hab] at h₁
    · by_cases hba : b.toNat < a.toNat
      · simp [clLtB, hba, Nat.lt_asymm hba] at h₂
      · simp only [clLtB, if_neg hab, if_neg hba] at h₁ h₂
        have hkey : a = b := char_toNat_inj (Nat.le_antisymm
          (Nat.le_of_not_lt hba) (Nat.le_of_not_lt hab))
        rw [hkey, clLtB_conn h₁ h₂]

theorem clLtB_trans : ∀ {l₁ l₂ l₃ : List Char},
    clLtB l₁ l₂ = true → clLtB l₂ l₃ = true → clLtB l₁ l₃ = true
  | [], _, c :: cs, _, _ => rfl
  | [], b :: bs, [], _, h₂ => by simp [clLtB] at h₂
  | [], [], [], h₁, _ => by simp [clLtB] at h₁
  | a :: as, [], _, h₁, _ => by simp [clLtB] at h₁
  | _ :: _, _ :: _, [], _, h₂ => by simp [clLtB] at h₂
  | a :: as, b :: bs, c :: cs, h₁, h₂ => by
    by_cases hab : a.toNat < b.toNat
    · by_cases hbc : b.toNat < c.toNat
      · have : a.toNat < c.toNat := Nat.lt_trans hab hbc
        simp [clLtB, this]
      · by_cases hcb : c.toNat < b.toNat
        · simp [clLtB, hbc, hcb] at h₂
        · have hbc' : b.toNat = c.toNat := Nat.le_antisymm
            (Nat.le_of_not_lt hcb) (Nat.le_of_not_lt hbc)
          have : a.toNat < c.toNat := hbc' ▸ hab
          simp [clLtB, this]
    · by_cases hba : b.toNat < a.toNat
      · simp [clLtB, hab, hba] at h₁
      · have hab' : a.toNat = b.toNat := Nat.le_antisymm
          (Nat.le_of_not_lt hba) (Nat.le_of_not_lt hab)
        simp only [clLtB, if_neg hab, if_neg hba] at h₁
        by_cases hbc : b.toNat < c.toNat
        · have : a.toNat < c.toNat := hab' ▸ hbc
          simp [clLtB, this]
        · by_cases hcb : c.toNat < b.toNat
          · simp [clLtB, hbc, hcb] at h₂
          · simp only [clLtB, if_neg hbc, if_neg hcb] at h₂
            have hac : ¬ a.toNat < c.toNat := by omega
            have hca : ¬ c.toNat < a.toNat := by omega
            simp only [clLtB, if_neg hac, if_neg hca]
            exact clLtB_trans h₁ h₂

theorem strLtB_irrefl (a : String) : strLtB a a = false :=
  clLtB_irrefl a.data

theorem strLtB_asymm {a b : String} (h : strLtB a b = true) : strLtB b a = false :=
  clLtB_asymm h

theorem strLtB_conn {a b : String} (h₁ : strLtB a b = false)
    (h₂ : strLtB b a = false) : a = b := by
  rcases a with ⟨da⟩
  rcases b with ⟨db⟩
  exact congrArg String.mk (clLtB_conn h₁ h₂)

theorem strLtB_trans {a b c : String} (h₁ : strLtB a b = true)
    (h₂ : strLtB b c = true) : strLtB a c = true :=
  clLtB_trans h₁ h₂

theorem strLtB_ne {a b : String} (h : strLtB a b = true) : a ≠ b := by
  intro he
  rw [he, strLtB_irrefl] at h
  exact Bool.false_ne_true h

/-! ### Lemmas about the canonical dict operations -/

theorem lookupD_setKey_self : ∀ (d : PDict) (k : String) (v : PVal),
    lookupD (setKey d k v) k = some v
  | [], k, v => by simp [setKey, lookupD]
  | (k', v') :: rest, k, v => by
    by_cases h1 : strLtB k k'
    · simp [setKey, h1, lookupD]
    · by_cases h2 : k = k'
      · simp [setKey, h1, h2, lookupD, strLtB_irrefl]
      · simp [setKey, h1, h2, lookupD, lookupD_setKey_self rest k v]

theorem lookupD_setKey_ne : ∀ (d : PDict) (k k'' : String) (v : PVal),
    k'' ≠ k → lookupD (setKey d k v) k'' = lookupD d k''
  | [], k, k'', v, hne => by simp [setKey, lookupD, hne]
  | (k', v') :: rest, k, k'', v, hne => by
    by_cases h1 : strLtB k k'
    · simp [setKey, h1, lookupD, hne]
    · by_cases h2 : k = k'
      · subst h2
        simp [setKey, h1, lookupD, hne]
      · simp [setKey, h1, h2, lookupD, lookupD_setKey_ne rest k k'' v hne]

theorem setKey_setKey_self : ∀ (d : PDict) (k : String) (v w : PVal),
    setKey (setKey d k v) k w = setKey d k w
  | [], k, v, w => by simp [setKey, strLtB_irrefl]
  | (k', v') :: rest, k, v, w => by
    by_cases h1 : strLtB k k'
    · simp [setKey, h1, strLtB_irrefl]
    · by_cases h2 : k = k'
      · subst h2
        simp [setKey, h1, strLtB_irrefl]
      · simp [setKey, h1, h2, setKey_setKey_self rest k v w]

theorem setKey_comm_lt {a b : String} (hlt : strLtB a b = true) (va vb : PVal) :
    ∀ d : PDict, setKey (setKey d a va) b vb = setKey (setKey d b vb) a va := by
  have hba : strLtB b a = false := strLtB_asymm hlt
  have hne : a ≠ b := strLtB_ne hlt
  have hne' : b ≠ a := fun h => hne h.symm
  intro d
  induction d with
  | nil => simp [setKey, hlt, hba, hne']
  | cons hd rest ih =>
    obtain ⟨k0, w0⟩ := hd
    by_cases hak : strLtB a k0
    · by_cases hbk : strLtB b k0
      · simp [setKey, hak, hbk, hba, hne', hlt]
      · by_cases hbk2 : b = k0
        · subst hbk2
          simp [setKey, hak, hbk, hba, hne', hlt, strLtB_irrefl]
        · simp [setKey, hak, hbk, hbk2, hba, hne', hlt]
    · by_cases hak2 : a = k0
      · subst hak2
        simp [setKey, hak, hba, hne', strLtB_irrefl]
      · have hbk0f : strLtB b k0 = false := by
          cases hv : strLtB b k0
          · rfl
          · exact absurd (strLtB_trans hlt hv) (by simp [hak])
        have hbk0ne : b ≠ k0 := by
          intro h
          subst h
          simp [hlt] at hak
        simp [setKey, hak, hak2, hbk0f, hbk0ne, ih]

theorem setKey_comm {a b : String} (hne : a ≠ b) (va vb : PVal) (d : PDict) :
    setKey (setKey d a va) b vb = setKey (setKey d b vb) a va := by
  cases hab : strLtB a b
  · cases hba : strLtB b a
    · exact absurd (strLtB_conn hab hba) hne
    · exact (setKey_comm_lt hba vb va d).symm
  · exact setKey_comm_lt hab va vb d

/-! ### Commutation and idempotence of single-path insertion -/

theorem insertPath_nil (d : PDict) : insertPath [] d = some d := rfl

theorem insertPath_single (k : String) (d : PDict) :
    insertPath [k] d = some (setKey d k PVal.term) := rfl

theorem insertPath_cons_term {d : PDict} {k : String} (k2 : String)
    (rest : List String) (h : lookupD d k = some PVal.term) :
    insertPath (k :: k2 :: rest) d = none := by
  simp only [insertPath, h]

theorem insertPath_cons_node {d : PDict} {k : String} {sub : PDict} (k2 : String)
    (rest : List String) (h : lookupD d k = some (PVal.node sub)) :
    insertPath (k :: k2 :: rest) d =
      (insertPath (k2 :: rest) sub).map (fun s => setKey d k (PVal.node s)) := by
  simp only [insertPath, h]

theorem insertPath_cons_none {d : PDict} {k : String} (k2 : String)
    (rest : List String) (h : lookupD d k = none) :
    insertPath (k :: k2 :: rest) d =
      (insertPath (k2 :: rest) []).map (fun s => setKey d k (PVal.node s)) := by
  simp only [insertPath, h]

theorem insertPath_shape (a : String) (P : List String) (d e : PDict)
    (h : insertPath (a :: P) d = some e) : ∃ v, e = setKey d a v := by
  cases P with
  | nil =>
    rw [insertPath_single] at h
    exact ⟨PVal.term, (Option.some.inj h).symm⟩
  | cons p2 P' =>
    cases hl : lookupD d a with
    | none =>
      rw [insertPath_cons_none p2 P' hl] at h
      cases hs : insertPath (p2 :: P') [] with
      | none => rw [hs] at h; simp at h
      | some s =>
        rw [hs] at h
        exact ⟨PVal.node s, (Option.some.inj h).symm⟩
    | some v =>
      cases v with
      | term => rw [insertPath_cons_term p2 P' hl] at h; simp at h
      | node sub =>
        rw [insertPath_cons_node p2 P' hl] at h
        cases hs : insertPath (p2 :: P') sub with
        | none => rw [hs] at h; simp at h
        | some s =>
          rw [hs] at h
          exact ⟨PVal.node s, (Option.some.inj h).symm⟩

theorem insert_into_setKey_node (a : String) (q2 : String) (Q : List String)
    (d s : PDict) :
    insertPath (a :: q2 :: Q) (setKey d a (PVal.node s)) =
      (insertPath (q2 :: Q) s).map (fun t => setKey d a (PVal.node t)) := by
  rw [insertPath_cons_node q2 Q (lookupD_setKey_self d a (PVal.node s))]
  cases insertPath (q2 :: Q) s with
  | none => simp
  | some t => simp [setKey_setKey_self]

theorem insertPath_cons_setKey_ne {a b : String} (hne : a ≠ b)
    (P : List String) (d : PDict) (v : PVal) :
    insertPath (a :: P) (setKey d b v) =
      (insertPath (a :: P) d).map (fun e => setKey e b v) := by
  cases P with
  | nil =>
    rw [insertPath_single, insertPath_single]
    simp only [Option.map_some']
    rw [setKey_comm (fun h => hne h.symm) v PVal.term d]
  | cons p2 P' =>
    have hl' : lookupD (setKey d b v) a = lookupD d a := lookupD_setKey_ne d b a v hne
    cases hl : lookupD d a with
    | none =>
      rw [insertPath_cons_none p2 P' (hl'.trans hl), insertPath_cons_none p2 P' hl]
      cases hs : insertPath (p2 :: P') [] with
      | none => simp
      | some s =>
        simp only [Option.map_some', Option.some.injEq]
        exact (setKey_comm hne (PVal.node s) v d).symm
    | some w =>
      cases w with
      | term => rw [insertPath_cons_term p2 P' (hl'.trans hl), insertPath_cons_term p2 P' hl]; rfl
      | node sub =>
        rw [insertPath_cons_node p2 P' (hl'.trans hl), insertPath_cons_node p2 P' hl]
        cases hs : insertPath (p2 :: P') sub with
        | none => simp
        | some s =>
          simp only [Option.map_some', Option.some.injEq]
          exact (setKey_comm hne (PVal.node s) v d).symm

theorem insert_comm_ne {a b : String} (hne : a ≠ b) (P Q : List String) (d : PDict) :
    (insertPath (a :: P) d).bind (insertPath (b :: Q)) =
      (insertPath (b :: Q) d).bind (insertPath (a :: P)) := by
  cases hA : insertPath (a :: P) d with
  | none =>
    cases hB : insertPath (b :: Q) d with
    | none => simp
    | some eB =>
      obtain ⟨vb, rfl⟩ := insertPath_shape b Q d eB hB
      simp only [Option.none_bind, Option.some_bind]
      rw [insertPath_cons_setKey_ne hne P d vb, hA]
      rfl
  | some eA =>
    obtain ⟨va, rfl⟩ := insertPath_shape a P d eA hA
    cases hB : insertPath (b :: Q) d with
    | none =>
      simp only [Option.some_bind, Option.none_bind]
      rw [insertPath_cons_setKey_ne (fun h => hne h.symm) Q d va, hB]
      rfl
    | some eB =>
      obtain ⟨vb, rfl⟩ := insertPath_shape b Q d eB hB
      simp only [Option.some_bind]
      rw [insertPath_cons_setKey_ne (fun h => hne h.symm) Q d va, hB,
        insertPath_cons_setKey_ne hne P d vb, hA]
      simp only [Option.map_some', Option.some.injEq]
      exact (setKey_comm hne va vb d).symm

theorem properPrefB_self : ∀ p : List String, properPrefB p p = false
  | [] => rfl
  | _ :: p => by simp [properPrefB, properPrefB_self p]

theorem pathCompat_cons {a : String} {P Q : List String}
    (h : pathCompat (a :: P) (a :: Q)) : pathCompat P Q := by
  simpa [pathCompat, properPrefB] using h

theorem insert_comm : ∀ (p q : List String), pathCompat p q →
    ∀ d : PDict, (insertPath p d).bind (insertPath q) =
      (insertPath q d).bind (insertPath p)
  | [], q, _, d => by
    rw [insertPath_nil]
    simp only [Option.some_bind]
    cases he : insertPath q d <;> simp [he, insertPath_nil]
  | p, [], _, d => by
    rw [insertPath_nil]
    simp only [Option.some_bind]
    cases he : insertPath p d <;> simp [he, insertPath_nil]
  | a :: P, b :: Q, hc, d => by
    by_cases hab : a = b
    · subst hab
      cases P with
      | nil =>
        cases Q with
        | nil => rfl
        | cons q2 Q' =>
          exact absurd (pathCompat_cons hc).1 (by simp [properPrefB])
      | cons p2 P' =>
        cases Q with
        | nil => exact absurd (pathCompat_cons hc).2 (by simp [properPrefB])
        | cons q2 Q' =>
          have hcc : pathCompat (p2 :: P') (q2 :: Q') := pathCompat_cons hc
          have key : ∀ sub : PDict,
              ((insertPath (p2 :: P') sub).map (fun s => setKey d a (PVal.node s))).bind
                  (insertPath (a :: q2 :: Q')) =
                ((insertPath (p2 :: P') sub).bind (insertPath (q2 :: Q'))).map
                  (fun t => setKey d a (PVal.node t)) := by
            intro sub
            cases hs : insertPath (p2 :: P') sub with
            | none => rfl
            | some s =>
              simp only [Option.map_some', Option.some_bind]
              exact insert_into_setKey_node a q2 Q' d s
          have key' : ∀ sub : PDict,
              ((insertPath (q2 :: Q') sub).map (fun s => setKey d a (PVal.node s))).bind
                  (insertPath (a :: p2 :: P')) =
                ((insertPath (q2 :: Q') sub).bind (insertPath (p2 :: P'))).map
                  (fun t => setKey d a (PVal.node t)) := by
            intro sub
            cases hs : insertPath (q2 :: Q') sub with
            | none => rfl
            | some s =>
              simp only [Option.map_some', Option.some_bind]
              exact insert_into_setKey_node a p2 P' d s
          cases hl : lookupD d a with
          | none =>
            rw [insertPath_cons_none p2 P' hl, insertPath_cons_none q2 Q' hl,
              key, key', insert_comm (p2 :: P') (q2 :: Q') hcc []]
          | some v =>
            cases v with
            | term =>
              rw [insertPath_cons_term p2 P' hl, insertPath_cons_term q2 Q' hl]
              rfl
            | node sub =>
              rw [insertPath_cons_node p2 P' hl, insertPath_cons_node q2 Q' hl,
                key, key', insert_comm (p2 :: P') (q2 :: Q') hcc sub]
    · exact insert_comm_ne hab P Q d

theorem insert_twice : ∀ (p : List String) (d : PDict),
    (insertPath p d).bind (insertPath p) = insertPath p d
  | [], d => rfl
  | [k], d => by
    rw [insertPath_single]
    simp only [Option.some_bind]
    rw [insertPath_single, setKey_setKey_self]
  | k :: k2 :: rest, d => by
    cases hl : lookupD d k with
    | none =>
      rw [insertPath_cons_none k2 rest hl]
      cases hs : insertPath (k2 :: rest) [] with
      | none => rfl
      | some s =>
        simp only [Option.map_some', Option.some_bind]
        rw [insert_into_setKey_node k k2 rest d s]
        have hss : insertPath (k2 :: rest) s = some s := by
          have h := insert_twice (k2 :: rest) []
          rw [hs] at h
          simpa using h
        rw [hss]
        rfl
    | some v =>
      cases v with
      | term => rw [insertPath_cons_term k2 rest hl]; rfl
      | node sub =>
        rw [insertPath_cons_node k2 rest hl]
        cases hs : insertPath (k2 :: rest) sub with
        | none => rfl
        | some s =>
          simp only [Option.map_some', Option.some_bind]
          rw [insert_into_setKey_node k k2 rest d s]
          have hss : insertPath (k2 :: rest) s = some s := by
            have h := insert_twice (k2 :: rest) sub
            rw [hs] at h
            simpa using h
          rw [hss]
          rfl

/-! ### Fold-level lemmas: permutation invariance of merging -/

theorem foldlM_option_flatten {α β : Type} (f : β → α → Option β) :
    ∀ (L : List (List α)) (b : β),
      L.foldlM (fun b g => g.foldlM f b) b = L.flatten.foldlM f b
  | [], _ => rfl
  | g :: L, b => by
    simp only [List.flatten_cons, List.foldlM_cons, List.foldlM_append]
    cases h : g.foldlM f b with
    | none => simp [h]
    | some b1 => simp [h, foldlM_option_flatten f L b1]

theorem foldlM_option_map {α γ β : Type} (g : α → γ) (f : β → γ → Option β) :
    ∀ (l : List α) (b : β),
      (l.map g).foldlM f b = l.foldlM (fun b a => f b (g a)) b
  | [], _ => rfl
  | a :: l, b => by
    simp only [List.map_cons, List.foldlM_cons]
    cases h : f b (g a) <;> simp [h, foldlM_option_map g f l]

theorem merge_paths_eq_foldIns (fp : List (List String)) :
    merge_paths fp = foldIns [] (flatSegs fp) := by
  unfold merge_paths foldIns flatSegs
  rw [foldlM_option_flatten (fun d path => insertPath (splitDots path) d) fp []]
  exact (foldlM_option_map splitDots (fun d p => insertPath p d) fp.flatten []).symm

theorem pathCompat_symm : Symmetric pathCompat := fun _ _ h => ⟨h.2, h.1⟩

theorem foldIns_cons (x : List String) (l : List (List String)) (d : PDict) :
    foldIns d (x :: l) = (insertPath x d).bind (fun d' => foldIns d' l) := by
  simp only [foldIns, List.foldlM_cons]
  cases insertPath x d <;> rfl

theorem foldIns_perm {l₁ l₂ : List (List String)} (hp : l₁.Perm l₂) :
    l₁.Pairwise pathCompat → ∀ d, foldIns d l₁ = foldIns d l₂ := by
  induction hp with
  | nil => intro _ _; rfl
  | cons x hp ih =>
    intro hpw d
    rw [foldIns_cons, foldIns_cons]
    cases h : insertPath x d with
    | none => rfl
    | some d1 =>
      simp only [Option.some_bind]
      exact ih (List.pairwise_cons.mp hpw).2 d1
  | swap x y t =>
    intro hpw d
    have hxy : pathCompat y x := (List.pairwise_cons.mp hpw).1 x (by simp)
    rw [foldIns_cons, foldIns_cons]
    have hassoc : ∀ (o : Option PDict) (f g : PDict → Option PDict),
        (o.bind f).bind g = o.bind (fun a => (f a).bind g) := by
      intro o f g
      cases o <;> rfl
    calc (insertPath y d).bind (fun d' => foldIns d' (x :: t))
        = ((insertPath y d).bind (insertPath x)).bind (fun d2 => foldIns d2 t) := by
          rw [hassoc]
          refine congrArg _ (funext fun d' => ?_)
          rw [foldIns_cons]
      _ = ((insertPath x d).bind (insertPath y)).bind (fun d2 => foldIns d2 t) := by
          rw [insert_comm y x hxy d]
      _ = (insertPath x d).bind (fun d' => foldIns d' (y :: t)) := by
          rw [hassoc]
          refine congrArg _ (funext fun d' => ?_)
          rw [foldIns_cons]
  | trans h12 _ ih12 ih23 =>
    intro hpw d
    rw [ih12 hpw d, ih23 ((h12.pairwise_iff (fun h => pathCompat_symm h)).mp hpw) d]

theorem foldIns_pair : ∀ (l : List (List String)) (d : PDict),
    foldIns d ((l.map (fun x => [x, x])).flatten) = foldIns d l
  | [], _ => rfl
  | x :: l, d => by
    simp only [List.map_cons, List.flatten_cons, List.cons_append, List.nil_append]
    simp only [foldIns_cons]
    have regroup : (insertPath x d).bind (fun d' => (insertPath x d').bind
        (fun d2 => foldIns d2 ((l.map (fun x => [x, x])).flatten))) =
        ((insertPath x d).bind (insertPath x)).bind
          (fun d2 => foldIns d2 ((l.map (fun x => [x, x])).flatten)) := by
      cases insertPath x d <;> rfl
    rw [regroup, insert_twice x d]
    cases h : insertPath x d with
    | none => rfl
    | some d1 =>
      simp only [Option.some_bind]
      exact foldIns_pair l d1

theorem append_self_perm_pair : ∀ l : List (List String),
    (l ++ l).Perm ((l.map (fun x => [x, x])).flatten)
  | [] => List.Perm.refl []
  | x :: l => by
    simp only [List.cons_append, List.map_cons, List.flatten_cons]
    exact (List.perm_middle.cons x).trans
      ((append_self_perm_pair l).cons x |>.cons x)

theorem pairwise_compat_append_self {l : List (List String)}
    (h : l.Pairwise pathCompat) : (l ++ l).Pairwise pathCompat := by
  rw [List.pairwise_append]
  refine ⟨h, h, ?_⟩
  intro a ha b hb
  by_cases hab : a = b
  · subst hab
    exact ⟨properPrefB_self a, properPrefB_self a⟩
  · exact List.Pairwise.forall pathCompat_symm h ha hb hab

/-! ### Characterisation of `defer_everything_but` -/

theorem defer_everything_but_eq (m : MapperM) (load : LoadM) (c : List String) :
    defer_everything_but m load c =
      m.props.foldl (deferStep m.primary_key c) load := rfl

theorem deferStep_of_decide_none {pks c : List String} {p : PropM}
    (h : deferDecide pks c p = none) (load : LoadM) :
    deferStep pks c load p = load := by
  unfold deferDecide at h
  unfold deferStep
  by_cases h1 : p.hasColumns
  · rw [if_pos h1] at h ⊢
    by_cases h2 : p.key ∉ c ∧ strDropLast3 p.key ∉ c ∧
        strTakeLast3 p.key ≠ "_id" ∧ p.key ≠ "position" ∧ p.key ∉ pks
    · rw [if_pos h2] at h
      exact absurd h (by simp)
    · rw [if_neg h2]
  · rw [if_neg h1] at h ⊢

theorem deferStep_of_decide_some {pks c : List String} {p : PropM} {op : LoadOp}
    (h : deferDecide pks c p = some op) (load : LoadM) :
    deferStep pks c load p = { load with ops := load.ops ++ [op] } := by
  unfold deferDecide at h
  unfold deferStep
  by_cases h1 : p.hasColumns
  · rw [if_pos h1] at h ⊢
    by_cases h2 : p.key ∉ c ∧ strDropLast3 p.key ∉ c ∧
        strTakeLast3 p.key ≠ "_id" ∧ p.key ≠ "position" ∧ p.key ∉ pks
    · rw [if_pos h2] at h ⊢
      rw [Option.some.inj h]
    · rw [if_neg h2] at h
      exact absurd h (by simp)
  · rw [if_neg h1] at h
    exact absurd h (by simp)

theorem deferStep_foldl_ops (pks c : List String) :
    ∀ (ps : List PropM) (load : LoadM),
      (ps.foldl (deferStep pks c) load).ops =
        load.ops ++ ps.filterMap (deferDecide pks c)
  | [], load => by simp
  | p :: ps, load => by
    rw [List.foldl_cons, List.filterMap_cons]
    cases hd : deferDecide pks c p with
    | none =>
      rw [deferStep_of_decide_none hd load]
      exact deferStep_foldl_ops pks c ps load
    | some op =>
      rw [deferStep_of_decide_some hd load, deferStep_foldl_ops pks c ps]
      simp

theorem defer_everything_but_ops (m : MapperM) (load : LoadM) (c : List String) :
    (defer_everything_but m load c).ops = load.ops ++ deferOps m c := by
  rw [defer_everything_but_eq, deferOps]
  exact deferStep_foldl_ops m.primary_key c m.props load

theorem deferDecide_eq_defer {pks c : List String} {p : PropM} {k : String} :
    deferDecide pks c p = some (LoadOp.defer k) ↔
      p.key = k ∧ p.hasColumns = true ∧ k ∉ c ∧ strDropLast3 k ∉ c ∧
        strTakeLast3 k ≠ "_id" ∧ k ≠ "position" ∧ k ∉ pks := by
  constructor
  · intro h
    unfold deferDecide at h
    by_cases h1 : p.hasColumns
    · rw [if_pos h1] at h
      by_cases h2 : p.key ∉ c ∧ strDropLast3 p.key ∉ c ∧
          strTakeLast3 p.key ≠ "_id" ∧ p.key ≠ "position" ∧ p.key ∉ pks
      · rw [if_pos h2] at h
        have hk : p.key = k := by
          have h' := Option.some.inj h
          cases h'
          rfl
        obtain ⟨c1, c2, c3, c4, c5⟩ := h2
        rw [hk] at c1 c2 c3 c4 c5
        exact ⟨hk, h1, c1, c2, c3, c4, c5⟩
      · rw [if_neg h2] at h
        exact absurd h (by simp)
    · rw [if_neg h1] at h
      exact absurd h (by simp)
  · rintro ⟨hk, hcols, hc1, hc2, hc3, hc4, hc5⟩
    unfold deferDecide
    rw [if_pos hcols, if_pos (show p.key ∉ c ∧ strDropLast3 p.key ∉ c ∧
        strTakeLast3 p.key ≠ "_id" ∧ p.key ≠ "position" ∧ p.key ∉ pks by
      rw [hk]; exact ⟨hc1, hc2, hc3, hc4, hc5⟩), hk]

theorem mem_deferOps {m : MapperM} {c : List String} {k : String} :
    LoadOp.defer k ∈ deferOps m c ↔
      ∃ p ∈ m.props, p.key = k ∧ p.hasColumns = true ∧ k ∉ c ∧
        strDropLast3 k ∉ c ∧ strTakeLast3 k ≠ "_id" ∧ k ≠ "position" ∧
        k ∉ m.primary_key := by
  simp only [deferOps, List.mem_filterMap]
  constructor
  · rintro ⟨p, hp, hf⟩
    exact ⟨p, hp, deferDecide_eq_defer.mp hf⟩
  · rintro ⟨p, hp, hconds⟩
    exact ⟨p, hp, deferDecide_eq_defer.mpr hconds⟩

/-! ### Structure of the load chains built by `walk_path` -/

theorem walk_path_nil (schema : DBSchema) (tree : PVal) (model : String)
    (load : LoadM) : walk_path schema [] tree model load = some load := rfl

theorem walk_path_term (schema : DBSchema) (p : String) (rest : List String)
    (model : String) (load : LoadM) :
    walk_path schema (p :: rest) PVal.term model load = none := rfl

theorem walk_path_attr_none {schema : DBSchema} {model p : String}
    (rest : List String) (d : PDict) (load : LoadM)
    (h : schema.attr model p = none) :
    walk_path schema (p :: rest) (PVal.node d) model load = none := by
  simp only [walk_path, h]

theorem walk_path_col_miss {schema : DBSchema} {model p : String} {d : PDict}
    (rest : List String) (load : LoadM)
    (h : schema.attr model p = some AttrProp.column) (hl : lookupD d p = none) :
    walk_path schema (p :: rest) (PVal.node d) model load =
      if rest = [] then some load else none := by
  simp only [walk_path, h, hl]

theorem walk_path_col {schema : DBSchema} {model p : String} {d : PDict}
    {sub : PVal} (rest : List String) (load : LoadM)
    (h : schema.attr model p = some AttrProp.column)
    (hl : lookupD d p = some sub) :
    walk_path schema (p :: rest) (PVal.node d) model load =
      walk_path schema rest sub model load := by
  simp only [walk_path, h, hl]

theorem walk_path_rel_lookup_none {schema : DBSchema} {model p : String}
    {d : PDict} {r : RelInfo} (rest : List String) (load : LoadM)
    (h : schema.attr model p = some (AttrProp.relationship r))
    (hl : lookupD d p = none) :
    walk_path schema (p :: rest) (PVal.node d) model load = none := by
  simp only [walk_path, h, hl]

theorem walk_path_rel_nopk {schema : DBSchema} {model p : String} {d : PDict}
    {r : RelInfo} {sub : PVal} (rest : List String) (load : LoadM)
    (h : schema.attr model p = some (AttrProp.relationship r))
    (hl : lookupD d p = some sub)
    (hpk : (schema.mapper r.mapperClass).primary_key.head? = none) :
    walk_path schema (p :: rest) (PVal.node d) model load = none := by
  simp only [walk_path, h, hl, hpk]

theorem walk_path_rel_sub_term {schema : DBSchema} {model p : String}
    {d : PDict} {r : RelInfo} {pk : String} (rest : List String) (load : LoadM)
    (h : schema.attr model p = some (AttrProp.relationship r))
    (hl : lookupD d p = some PVal.term)
    (hpk : (schema.mapper r.mapperClass).primary_key.head? = some pk) :
    walk_path schema (p :: rest) (PVal.node d) model load = none := by
  simp only [walk_path, h, hl, hpk]

theorem walk_path_rel {schema : DBSchema} {model p : String} {d : PDict}
    {r : RelInfo} {dsub : PDict} {pk : String} (rest : List String) (load : LoadM)
    (h : schema.attr model p = some (AttrProp.relationship r))
    (hl : lookupD d p = some (PVal.node dsub))
    (hpk : (schema.mapper r.mapperClass).primary_key.head? = some pk) :
    walk_path schema (p :: rest) (PVal.node d) model load =
      walk_path schema rest (PVal.node dsub) r.mapperClass
        (defer_everything_but (schema.mapper r.mapperClass)
          (match r.direction with
           | RelDir.onetomany => { load with ops := load.ops ++ [LoadOp.subqueryload p] }
           | RelDir.manytoone => { load with ops := load.ops ++ [LoadOp.joinedload p] }
           | RelDir.other => { load with ops := load.ops ++ [LoadOp.defaultload p] })
          (dsub.map (fun kv => kv.1) ++ [pk])) := by
  simp only [walk_path, h, hl, hpk]

theorem walk_path_ops_extend (schema : DBSchema) :
    ∀ (segs : List String) (tree : PVal) (model : String) (load l' : LoadM),
      walk_path schema segs tree model load = some l' →
      ∃ s, l'.ops = load.ops ++ s ∧ ∀ op, s.head? = some op → op.isNav = true := by
  intro segs
  induction segs with
  | nil =>
    intro tree model load l' h
    rw [walk_path_nil] at h
    exact ⟨[], by rw [← Option.some.inj h]; simp, fun op hop => by simp at hop⟩
  | cons p rest ih =>
    intro tree model load l' h
    cases tree with
    | term => rw [walk_path_term] at h; exact absurd h (by simp)
    | node d =>
      cases ha : schema.attr model p with
      | none => rw [walk_path_attr_none rest d load ha] at h; exact absurd h (by simp)
      | some ap =>
        cases ap with
        | column =>
          cases hl : lookupD d p with
          | none =>
            rw [walk_path_col_miss rest load ha hl] at h
            by_cases hr : rest = []
            · rw [if_pos hr] at h
              exact ⟨[], by rw [← Option.some.inj h]; simp, fun op hop => by simp at hop⟩
            · rw [if_neg hr] at h
              exact absurd h (by simp)
          | some sub =>
            rw [walk_path_col rest load ha hl] at h
            exact ih sub model load l' h
        | relationship r =>
          cases hl : lookupD d p with
          | none =>
            rw [walk_path_rel_lookup_none rest load ha hl] at h
            exact absurd h (by simp)
          | some sub =>
            cases hpk : (schema.mapper r.mapperClass).primary_key.head? with
            | none =>
              rw [walk_path_rel_nopk rest load ha hl hpk] at h
              exact absurd h (by simp)
            | some pk =>
              cases sub with
              | term =>
                rw [walk_path_rel_sub_term rest load ha hl hpk] at h
                exact absurd h (by simp)
              | node dsub =>
                rw [walk_path_rel rest load ha hl hpk] at h
                obtain ⟨s', hs', _⟩ := ih (PVal.node dsub) r.mapperClass _ l' h
                rw [defer_everything_but_ops] at hs'
                cases hdir : r.direction
                all_goals rw [hdir] at hs'
                · refine ⟨LoadOp.subqueryload p ::
                    (deferOps (schema.mapper r.mapperClass)
                      (dsub.map (fun kv => kv.1) ++ [pk]) ++ s'), ?_, ?_⟩
                  · rw [hs']; simp
                  · intro op hop
                    simp only [List.head?_cons, Option.some.injEq] at hop
                    rw [← hop]; rfl
                · refine ⟨LoadOp.joinedload p ::
                    (deferOps (schema.mapper r.mapperClass)
                      (dsub.map (fun kv => kv.1) ++ [pk]) ++ s'), ?_, ?_⟩
                  · rw [hs']; simp
                  · intro op hop
                    simp only [List.head?_cons, Option.some.injEq] at hop
                    rw [← hop]; rfl
                · refine ⟨LoadOp.defaultload p ::
                    (deferOps (schema.mapper r.mapperClass)
                      (dsub.map (fun kv => kv.1) ++ [pk]) ++ s'), ?_, ?_⟩
                  · rw [hs']; simp
                  · intro op hop
                    simp only [List.head?_cons, Option.some.injEq] at hop
                    rw [← hop]; rfl

/-! ### Membership in the option list built by `build_entity_query` -/

theorem foldAppend_mem {α : Type} (W : α → Option LoadM) :
    ∀ (l : List α) (q₀ q : List LoadM),
      l.foldlM (fun q x => (W x).map (fun load => q ++ [load])) q₀ = some q →
      ∀ ld ∈ q, ld ∈ q₀ ∨ ∃ x, W x = some ld
  | [], q₀, q, h, ld, hld => by
    simp only [List.foldlM_nil] at h
    exact Or.inl ((Option.some.inj h) ▸ hld)
  | x :: l, q₀, q, h, ld, hld => by
    rw [List.foldlM_cons] at h
    cases hW : W x with
    | none =>
      rw [hW] at h
      exact absurd h (by simp)
    | some load =>
      rw [hW] at h
      simp only [Option.map_some', Option.some_bind] at h
      rcases foldAppend_mem W l (q₀ ++ [load]) q h ld hld with hin | hex
      · rcases List.mem_append.mp hin with h1 | h2
        · exact Or.inl h1
        · exact Or.inr ⟨x, by rw [hW, List.mem_singleton.mp h2]⟩
      · exact Or.inr hex

theorem build_entity_query_mem {schema : DBSchema} {root_model : String}
    {fields : List SearchFieldM} {q : List LoadM}
    (h : build_entity_query schema root_model fields = some q) :
    ∀ l ∈ q, ∃ merged path,
      merge_paths (field_paths_of fields) = some merged ∧
      walk_path schema (splitDots path) (PVal.node merged) root_model
        { ops := [] } = some l := by
  intro l hl
  unfold build_entity_query at h
  cases hm : merge_paths (field_paths_of fields) with
  | none => rw [hm] at h; exact absurd h (by simp)
  | some merged =>
    rw [hm] at h
    simp only [] at h
    rw [foldlM_option_flatten
      (fun query path =>
        (walk_path schema (splitDots path) (PVal.node merged) root_model
          { ops := [] }).map (fun load => query ++ [load]))
      (field_paths_of fields) []] at h
    rcases foldAppend_mem
      (fun path => walk_path schema (splitDots path) (PVal.node merged)
        root_model { ops := [] })
      (field_paths_of fields).flatten [] q h l hl with hin | ⟨path, hw⟩
    · exact absurd hin (by simp)
    · exact ⟨merged, path, rfl, hw⟩

/-! ### Claim theorems -/

/-- C1: the claim says that after merging, a segment that is both the last
segment of one path and an intermediate segment of another carries both the
terminal marker and the nested subtree (its own example: `area` with
`area.name`).  The code cannot represent this: evaluating `merge_paths` at
the claim's example shows that inserting `area.name` after the terminal
`area` raises `TypeError` (embedded as `none`), while the reverse order
silently overwrites the subtree, losing the child `name`. -/
theorem merge_paths_terminal_subtree_conflict :
    merge_paths [["area"], ["area.name"]] = none ∧
    merge_paths [["area.name"], ["area"]] = some [("area", PVal.term)] :=
  ⟨rfl, rfl⟩

/-- C2 (amended): `merge_paths` is idempotent and order-independent only on
inputs in which no path's segment sequence is a proper prefix of another's;
under that condition, merging the input twice over changes nothing, and any
permutation of the flattened path list yields the same tree. -/
theorem merge_paths_idem_and_order_independent :
    (∀ fp : List (List String), (flatSegs fp).Pairwise pathCompat →
        merge_paths (fp ++ fp) = merge_paths fp) ∧
    (∀ fp₁ fp₂ : List (List String), (flatSegs fp₁).Pairwise pathCompat →
        (flatSegs fp₁).Perm (flatSegs fp₂) →
        merge_paths fp₁ = merge_paths fp₂) := by
  constructor
  · intro fp hpw
    rw [merge_paths_eq_foldIns, merge_paths_eq_foldIns]
    have hflat : flatSegs (fp ++ fp) = flatSegs fp ++ flatSegs fp := by
      simp [flatSegs]
    rw [hflat,
      foldIns_perm (append_self_perm_pair (flatSegs fp))
        (pairwise_compat_append_self hpw) []]
    exact foldIns_pair (flatSegs fp) []
  · intro fp₁ fp₂ hpw hperm
    rw [merge_paths_eq_foldIns, merge_paths_eq_foldIns]
    exact foldIns_perm hperm hpw []

/-- C2 counterexample: permuting the path-groups changes the result (one
order fails where the other succeeds), and re-merging the same path set can
also change the result, because a path whose segments are a proper prefix of
another path's conflicts with the terminal marker. -/
theorem merge_paths_order_dependent_cex :
    merge_paths [["a"], ["a.b"]] ≠ merge_paths [["a.b"], ["a"]] ∧
    merge_paths ([["a.b", "a"]] ++ [["a.b", "a"]]) ≠
      merge_paths [["a.b", "a"]] := by
  constructor
  · intro h
    have h1 : merge_paths [["a"], ["a.b"]] = none := rfl
    have h2 : merge_paths [["a.b"], ["a"]] = some [("a", PVal.term)] := rfl
    rw [h1, h2] at h
    exact Option.noConfusion h
  · intro h
    have h1 : merge_paths ([["a.b", "a"]] ++ [["a.b", "a"]]) = none := rfl
    have h2 : merge_paths [["a.b", "a"]] = some [("a", PVal.term)] := rfl
    rw [h1, h2] at h
    exact Option.noConfusion h

/-- C2 witness: a concrete conflict-free path set on which both parts of the
amended statement apply. -/
theorem merge_paths_idem_and_order_independent_witness :
    ((flatSegs [["x.y"], ["z"]]).Pairwise pathCompat ∧
     (flatSegs [["x.y"], ["z"]]).Perm (flatSegs [["z"], ["x.y"]])) ∧
    merge_paths ([["x.y"], ["z"]] ++ [["x.y"], ["z"]]) =
      merge_paths [["x.y"], ["z"]] ∧
    merge_paths [["x.y"], ["z"]] = merge_paths [["z"], ["x.y"]] :=
  ⟨⟨by decide, by decide⟩,
   merge_paths_idem_and_order_independent.1 [["x.y"], ["z"]] (by decide),
   merge_paths_idem_and_order_independent.2 [["x.y"], ["z"]] [["z"], ["x.y"]]
     (by decide) (by decide)⟩

/-- C3: for every mapper, load chain and required-column set,
`defer_everything_but` never defers a primary-key column, a column whose
key ends in `_id`, or the column `position`: any such defer operation in
the result was already present on the incoming load chain. -/
theorem defer_everything_but_keeps_protected (m : MapperM) (load : LoadM)
    (c : List String) (k : String)
    (hk : k ∈ m.primary_key ∨ strTakeLast3 k = "_id" ∨ k = "position") :
    LoadOp.defer k ∈ (defer_everything_but m load c).ops →
      LoadOp.defer k ∈ load.ops := by
  intro hmem
  rw [defer_everything_but_ops] at hmem
  rcases List.mem_append.mp hmem with h | h
  · exact h
  · obtain ⟨p, _, _, _, _, _, h3, h4, h5⟩ := mem_deferOps.mp h
    rcases hk with hk | hk | hk
    · exact absurd hk h5
    · exact absurd hk h3
    · exact absurd hk h4

/-- C3 witness: a concrete mapper on which `position` is not deferred even
with an empty required-column set. -/
theorem defer_everything_but_keeps_protected_witness :
    ("position" ∈ (["id"] : List String) ∨ strTakeLast3 "position" = "_id" ∨
        ("position" : String) = "position") ∧
    LoadOp.defer "position" ∉
      (defer_everything_but ⟨["id"], [⟨"position", true⟩, ⟨"x", true⟩]⟩
        ⟨[]⟩ []).ops :=
  ⟨Or.inr (Or.inr rfl), fun hmem => by
    simpa using defer_everything_but_keeps_protected
      ⟨["id"], [⟨"position", true⟩, ⟨"x", true⟩]⟩ ⟨[]⟩ [] "position"
      (Or.inr (Or.inr rfl)) hmem⟩

/-- C10: starting from a fresh load chain, `defer_everything_but` defers a
column with key `k` if and only if `k` is the key of a column property of
the mapper, `k` is not in the required set, `k` minus its last three
characters is not in the required set, `k` does not end in `_id`, `k` is
not `position`, and `k` is not a primary-key column name. -/
theorem defer_everything_but_defer_iff (m : MapperM) (c : List String)
    (k : String) :
    LoadOp.defer k ∈ (defer_everything_but m ⟨[]⟩ c).ops ↔
      (∃ p ∈ m.props, p.key = k ∧ p.hasColumns = true) ∧ k ∉ c ∧
        strDropLast3 k ∉ c ∧ strTakeLast3 k ≠ "_id" ∧ k ≠ "position" ∧
        k ∉ m.primary_key := by
  rw [defer_everything_but_ops]
  show LoadOp.defer k ∈ [] ++ deferOps m c ↔ _
  rw [List.nil_append, mem_deferOps]
  constructor
  · rintro ⟨p, hp, hk, hcol, h1, h2, h3, h4, h5⟩
    exact ⟨⟨p, hp, hk, hcol⟩, h1, h2, h3, h4, h5⟩
  · rintro ⟨⟨p, hp, hk, hcol⟩, h1, h2, h3, h4, h5⟩
    exact ⟨p, hp, hk, hcol, h1, h2, h3, h4, h5⟩

/-- C4 counterexample: the claim says every reached type's non-required,
non-always-kept columns are deferred, including the root entity type's.  But
for a root model `artist` with an extra plain column `comment` and a single
field on path `name`, the compiled query is one empty option chain: the
root column `comment` is not deferred although it is not required and not
in the always-kept set. -/
theorem build_entity_query_root_column_not_deferred_cex :
    build_entity_query egSchema "artist" [⟨"name", ["name"]⟩] =
        some [{ ops := [] }] ∧
    (⟨"comment", true⟩ : PropM) ∈ (egSchema.mapper "artist").props ∧
    "comment" ∉ (["name"] : List String) ∧
    strDropLast3 "comment" ∉ (["name"] : List String) ∧
    strTakeLast3 "comment" ≠ "_id" ∧
    ("comment" : String) ≠ "position" ∧
    "comment" ∉ (egSchema.mapper "artist").primary_key ∧
    LoadOp.defer "comment" ∉ (LoadM.mk []).ops := by
  refine ⟨rfl, ?_, ?_, ?_, ?_, ?_, ?_, ?_⟩ <;> decide

/-- C4 (amended): columns are deferred only at relationship hops, never on
the root model — in every option chain of a successfully compiled query the
first operation, if any, is a relationship navigation, not a defer — and at
each hop `defer_everything_but` does defer every column property of the
hop's mapper whose key is outside the required set, whose `key[:-3]` stem
is also outside the required set, and which is not always-kept (a
primary-key name, a key ending `_id`, or `position`). -/
theorem build_entity_query_defer_discipline :
    (∀ (schema : DBSchema) (root_model : String) (fields : List SearchFieldM)
        (q : List LoadM), build_entity_query schema root_model fields = some q →
        ∀ l ∈ q, ∀ op, l.ops.head? = some op → op.isNav = true) ∧
    (∀ (m : MapperM) (load : LoadM) (c : List String) (p : PropM),
        p ∈ m.props → p.hasColumns = true → p.key ∉ c →
        strDropLast3 p.key ∉ c → strTakeLast3 p.key ≠ "_id" →
        p.key ≠ "position" → p.key ∉ m.primary_key →
        LoadOp.defer p.key ∈ (defer_everything_but m load c).ops) := by
  constructor
  · intro schema root_model fields q hq l hl op hop
    obtain ⟨merged, path, _, hw⟩ := build_entity_query_mem hq l hl
    obtain ⟨s, hs, hnav⟩ := walk_path_ops_extend schema (splitDots path)
      (PVal.node merged) root_model { ops := [] } l hw
    rw [hs] at hop
    simp only [List.nil_append] at hop
    exact hnav op hop
  · intro m load c p hp hcol h1 h2 h3 h4 h5
    rw [defer_everything_but_ops]
    exact List.mem_append.mpr
      (Or.inr (mem_deferOps.mpr ⟨p, hp, rfl, hcol, h1, h2, h3, h4, h5⟩))

/-- C4 witness: a concrete build whose single chain starts with a
navigation, and a concrete hop deferral. -/
theorem build_entity_query_defer_discipline_witness :
    build_entity_query egSchema "artist" [⟨"an", ["area.name"]⟩] =
        some [{ ops := [LoadOp.joinedload "area", LoadOp.defer "comment"] }] ∧
    (LoadOp.joinedload "area").isNav = true ∧
    LoadOp.defer "comment" ∈
      (defer_everything_but (egSchema.mapper "area") ⟨[]⟩ ["name", "id"]).ops :=
  ⟨rfl,
   build_entity_query_defer_discipline.1 egSchema "artist" [⟨"an", ["area.name"]⟩]
     [{ ops := [LoadOp.joinedload "area", LoadOp.defer "comment"] }] rfl
     { ops := [LoadOp.joinedload "area", LoadOp.defer "comment"] } (by simp)
     (LoadOp.joinedload "area") rfl,
   build_entity_query_defer_discipline.2 (egSchema.mapper "area") ⟨[]⟩
     ["name", "id"] ⟨"comment", true⟩ (by decide) rfl (by decide) (by decide)
     (by decide) (by decide) (by decide)⟩

/-- C5: at a relationship hop the loading strategy appended to the chain is
selected purely by the relationship's direction: one-to-many gives
`subqueryload`, many-to-one gives `joinedload`, anything else gives
`defaultload`. -/
theorem walk_path_strategy_by_direction (schema : DBSchema) (p : String)
    (rest : List String) (d dsub : PDict) (model : String) (load l' : LoadM)
    (r : RelInfo) (pk : String)
    (hattr : schema.attr model p = some (AttrProp.relationship r))
    (hlook : lookupD d p = some (PVal.node dsub))
    (hpk : (schema.mapper r.mapperClass).primary_key.head? = some pk)
    (hw : walk_path schema (p :: rest) (PVal.node d) model load = some l') :
    ∃ s, l'.ops = load.ops ++
      (match r.direction with
       | RelDir.onetomany => LoadOp.subqueryload p
       | RelDir.manytoone => LoadOp.joinedload p
       | RelDir.other => LoadOp.defaultload p) :: s := by
  rw [walk_path_rel rest load hattr hlook hpk] at hw
  obtain ⟨s', hs', _⟩ := walk_path_ops_extend schema rest (PVal.node dsub)
    r.mapperClass _ l' hw
  rw [defer_everything_but_ops] at hs'
  cases hdir : r.direction
  all_goals rw [hdir] at hs'
  · exact ⟨deferOps (schema.mapper r.mapperClass)
      (dsub.map (fun kv => kv.1) ++ [pk]) ++ s', by rw [hs']; simp⟩
  · exact ⟨deferOps (schema.mapper r.mapperClass)
      (dsub.map (fun kv => kv.1) ++ [pk]) ++ s', by rw [hs']; simp⟩
  · exact ⟨deferOps (schema.mapper r.mapperClass)
      (dsub.map (fun kv => kv.1) ++ [pk]) ++ s', by rw [hs']; simp⟩

/-- C5 witness: walking the many-to-one hop `area` on the concrete schema
appends `joinedload` first. -/
theorem walk_path_strategy_by_direction_witness :
    egSchema.attr "artist" "area" =
        some (AttrProp.relationship ⟨RelDir.manytoone, "area"⟩) ∧
    ∃ s, (LoadM.mk [LoadOp.joinedload "area", LoadOp.defer "comment"]).ops =
      (LoadM.mk []).ops ++
        (match (⟨RelDir.manytoone, "area"⟩ : RelInfo).direction with
         | RelDir.onetomany => LoadOp.subqueryload "area"
         | RelDir.manytoone => LoadOp.joinedload "area"
         | RelDir.other => LoadOp.defaultload "area") :: s :=
  ⟨rfl,
   walk_path_strategy_by_direction egSchema "area" ["name"]
     [("area", PVal.node [("name", PVal.term)])] [("name", PVal.term)]
     "artist" ⟨[]⟩ ⟨[LoadOp.joinedload "area", LoadOp.defer "comment"]⟩
     ⟨RelDir.manytoone, "area"⟩ "id" rfl rfl rfl rfl⟩

/-- C6: on any processing failure with retry budget `r > 0` (an absent
header counting as the configured maximum) the wrapper performs exactly one
reject with `requeue = false`, exactly one publish, to `search.retry` with
the same routing key and the counter decremented, and zero acks. -/
theorem callback_wrapper_retry (retries_header : Option Nat)
    (default_retries tag : Nat) (routing_key : String)
    (h : 0 < retries_header.getD default_retries) :
    acksOf (callback_wrapper true retries_header default_retries tag
        routing_key) = [] ∧
    rejectsOf (callback_wrapper true retries_header default_retries tag
        routing_key) = [(tag, false)] ∧
    publishesOf (callback_wrapper true retries_header default_retries tag
        routing_key) =
      [("search.retry", routing_key, retries_header.getD default_retries - 1)] := by
  simp only [callback_wrapper, if_true]
  rw [if_pos h]
  exact ⟨rfl, rfl, rfl⟩

/-- C6 witness. -/
theorem callback_wrapper_retry_witness :
    0 < (some 3 : Option Nat).getD 5 ∧
    (acksOf (callback_wrapper true (some 3) 5 7 "rk") = [] ∧
     rejectsOf (callback_wrapper true (some 3) 5 7 "rk") = [(7, false)] ∧
     publishesOf (callback_wrapper true (some 3) 5 7 "rk") =
       [("search.retry", "rk", (some 3 : Option Nat).getD 5 - 1)]) :=
  ⟨by decide, callback_wrapper_retry (some 3) 5 7 "rk" (by decide)⟩

/-- C7: on any processing failure with retry counter `0` the wrapper
performs exactly one reject with `requeue = false`, exactly one publish, to
`search.failed` with the same routing key and the counter left at `0`, and
zero acks. -/
theorem callback_wrapper_dead_letter (retries_header : Option Nat)
    (default_retries tag : Nat) (routing_key : String)
    (h : retries_header.getD default_retries = 0) :
    acksOf (callback_wrapper true retries_header default_retries tag
        routing_key) = [] ∧
    rejectsOf (callback_wrapper true retries_header default_retries tag
        routing_key) = [(tag, false)] ∧
    publishesOf (callback_wrapper true retries_header default_retries tag
        routing_key) = [("search.failed", routing_key, 0)] := by
  simp only [callback_wrapper, if_true]
  rw [if_neg (by rw [h]; exact Nat.lt_irrefl 0)]
  exact ⟨rfl, rfl, rfl⟩

/-- C7 witness. -/
theorem callback_wrapper_dead_letter_witness :
    (some 0 : Option Nat).getD 5 = 0 ∧
    (acksOf (callback_wrapper true (some 0) 5 7 "rk") = [] ∧
     rejectsOf (callback_wrapper true (some 0) 5 7 "rk") = [(7, false)] ∧
     publishesOf (callback_wrapper true (some 0) 5 7 "rk") =
       [("search.failed", "rk", 0)]) :=
  ⟨rfl, callback_wrapper_dead_letter (some 0) 5 7 "rk" rfl⟩

/-- C8: on successful processing the wrapper acknowledges the delivery
exactly once and performs zero publishes and zero rejects. -/
theorem callback_wrapper_ack (retries_header : Option Nat)
    (default_retries tag : Nat) (routing_key : String) :
    acksOf (callback_wrapper false retries_header default_retries tag
        routing_key) = [tag] ∧
    rejectsOf (callback_wrapper false retries_header default_retries tag
        routing_key) = [] ∧
    publishesOf (callback_wrapper false retries_header default_retries tag
        routing_key) = [] :=
  ⟨rfl, rfl, rfl⟩

/-- C9: a change to an `area` row with id 2 fans out to exactly 5 projection
queries, one per dependent entity-type/foreign-key-column pair, in the fixed
declared order, each selecting only the dependent primary key and each
filtered by the foreign-key column being in the id set `{2}`. -/
theorem index_by_fk_area_queries :
    index_by_fk "area" "2" =
      [("SELECT place.id FROM musicbrainz.place WHERE place.area IN (:ids)", "2"),
       ("SELECT label.id FROM musicbrainz.label WHERE label.area IN (:ids)", "2"),
       ("SELECT artist.id FROM musicbrainz.artist WHERE artist.end_area IN (:ids)", "2"),
       ("SELECT artist.id FROM musicbrainz.artist WHERE artist.area IN (:ids)", "2"),
       ("SELECT artist.id FROM musicbrainz.artist WHERE artist.begin_area IN (:ids)", "2")] ∧
    (index_by_fk "area" "2").length = 5 :=
  ⟨rfl, rfl⟩

end Sir
